import Mathlib

set_option maxHeartbeats 1000000

/- Verification of the ELECDRAFT wire-routing and circuit-topology core:
   the obstacle query (DesignCanvas.is_wall_at), the A* wire router
   (WireItem.calculate_astar_path), the homerun BFS traversal
   (MainWindow._update_homerun_folder) and the connection model
   (ElectricalComponent.add_connection), shallowly embedded from
   src/ui/canvas.py and src/main.py. -/

namespace Elecdraft

/- Rat.mul, Rat.add, Rat.inv and Rat.sub are irreducible in Batteries,
which blocks elaborator-side evaluation of concrete rational arithmetic
(decide); restore the default reducibility locally. -/
attribute [local semireducible] Rat.mul Rat.add Rat.inv Rat.sub

/-! ## Definitions: the embedded program -/

/-- Floor of a rational, computed by floor-division of the numerator by the
(positive) denominator so that it reduces in the kernel. -/
def ratFloor (q : ℚ) : ℤ := q.num.fdiv (q.den : ℤ)

/-- Python `int(...)` applied to a float/rational: truncation toward zero. -/
def pytrunc (q : ℚ) : ℤ := if q < 0 then -(ratFloor (-q)) else ratFloor q

/-- Python 3 `round(...)` on a rational: nearest integer, ties to even. -/
def pyround (q : ℚ) : ℤ :=
  let f := ratFloor q
  let r := q - (f : ℚ)
  if r < 1/2 then f
  else if 1/2 < r then f + 1
  else if f % 2 = 0 then f else f + 1

/-- The obstacle bitmap (`DesignCanvas.obstacle_map`, a QImage): width,
height in pixels, and the per-pixel lightness (0..255). -/
structure Bitmap where
  width : ℕ
  height : ℕ
  lightness : ℤ → ℤ → ℕ

/-- A continuous scene position (QPointF), modelled as a rational pair. -/
abbrev Pt : Type := ℚ × ℚ

/-- A planner grid node: integer scene coordinates. -/
abbrev Node : Type := ℤ × ℤ

/-- The wall query `DesignCanvas.is_wall_at` (src/ui/canvas.py:341-357).  The floorplan
item is positioned at the origin with no transform (`setPos(0, 0)` in
`set_template`), so `mapFromScene` is the identity.  The scene position is
truncated to integers by `int(local_p.x()), int(local_p.y())`; inside the
bitmap bounds a pixel is a wall iff its lightness is below 120; with no
obstacle map, or out of bounds, the answer is `false`. -/
def is_wall_at (om : Option Bitmap) (pos : Pt) : Bool :=
  match om with
  | none => false
  | some bm =>
    let x := pytrunc pos.1
    let y := pytrunc pos.2
    if 0 ≤ x ∧ x < (bm.width : ℤ) ∧ 0 ≤ y ∧ y < (bm.height : ℤ) then
      decide (bm.lightness x y < 120)
    else
      false

/-- The connection lists of all components, addressed by a component id
(the `ElectricalComponent.connections` fields). -/
abbrev ConnState : Type := ℕ → List ℕ

/-- The method `ElectricalComponent.add_connection` (src/ui/canvas.py:182-186), run by
component `a` on argument `other` (`None` or another component):
`if other_item and other_item not in self.connections:` append and return
`True`, else return `False`. -/
def add_connection (st : ConnState) (a : ℕ) (other : Option ℕ) :
    ConnState × Bool :=
  match other with
  | none => (st, false)
  | some b =>
    if b ∈ st a then (st, false)
    else ((fun c => if c = a then st a ++ [b] else st c), true)

/-- A frontier entry as pushed by `heapq.heappush(queue, (priority, nxt))`. -/
abbrev Entry : Type := ℤ × Node

/-- Python tuple comparison `(p1, (x1, y1)) <= (p2, (x2, y2))`:
lexicographic on priority, then on the node coordinates.  `heapq.heappop`
always removes a minimal element under this order. -/
def entryLE (a b : Entry) : Prop :=
  a.1 < b.1 ∨ (a.1 = b.1 ∧ (a.2.1 < b.2.1 ∨ (a.2.1 = b.2.1 ∧ a.2.2 ≤ b.2.2)))

instance (a b : Entry) : Decidable (entryLE a b) := by
  unfold entryLE; infer_instance

/-- The pop `heapq.heappop`: remove a minimal entry (observationally exact: equal
tuples are indistinguishable, and the heap always pops a minimum). -/
def popMin : List Entry → Option (Entry × List Entry)
  | [] => none
  | x :: xs =>
    match popMin xs with
    | none => some (x, xs)
    | some (m, rest) => if entryLE x m then some (x, xs) else some (m, x :: rest)

/-- The mutable search state of `calculate_astar_path`: the heap `queue`,
and the dicts `came_from` and `cost_so_far`. -/
structure AState where
  queue : List Entry
  came_from : Node → Option (Option Node)
  cost_so_far : Node → Option ℤ

/-- The Manhattan heuristic `abs(e_node[0]-nxt[0]) + abs(e_node[1]-nxt[1])`. -/
def hManhattan (e n : Node) : ℤ := |e.1 - n.1| + |e.2 - n.2|

/-- The neighbor offsets `[(grid, 0), (-grid, 0), (0, grid), (0, -grid)]`
with `grid = 20`. -/
def dirs : List Node := [(20, 0), (-20, 0), (0, 20), (0, -20)]

/-- A grid node as a scene position, `QPointF(nxt[0], nxt[1])`. -/
def toPoint (n : Node) : Pt := ((n.1 : ℚ), (n.2 : ℚ))

/-- The relaxation test `nxt not in cost_so_far or new_cost < cost_so_far[nxt]`, where
`new_cost = cost_so_far[current] + grid` (the `getD 0` is the Python dict
lookup `cost_so_far[current]`, which never misses: every dequeued node has
a cost entry, see `Inv` below). -/
def improves (st : AState) (current nxt : Node) : Bool :=
  match st.cost_so_far nxt with
  | none => true
  | some c => (st.cost_so_far current).getD 0 + 20 < c

/-- One iteration of the inner `for dx, dy in ...` body: skip `nxt` iff it
is a wall; otherwise, when `improves`, record the new cost, push
`(new_cost + heuristic, nxt)` and re-parent `nxt` to `current`. -/
def relaxDir (om : Option Bitmap) (e_node current : Node) (st : AState)
    (d : Node) : AState :=
  let nxt : Node := (current.1 + d.1, current.2 + d.2)
  if is_wall_at om (toPoint nxt) then st
  else if improves st current nxt then
    { queue := st.queue ++
        [((st.cost_so_far current).getD 0 + 20 + hManhattan e_node nxt, nxt)]
      came_from := fun m => if m = nxt then some (some current) else st.came_from m
      cost_so_far := fun m =>
        if m = nxt then some ((st.cost_so_far current).getD 0 + 20)
        else st.cost_so_far m }
  else st

/-- The full neighbor scan for a dequeued `current`. -/
def expandNode (om : Option Bitmap) (e_node current : Node) (st : AState) :
    AState :=
  dirs.foldl (relaxDir om e_node current) st

/-- The `while queue:` loop: pop a minimal entry, stop on `e_node`,
otherwise expand.  `fuel` bounds the number of dequeue steps (the Python
loop is unbounded); `none` means the bound was hit. -/
def astarLoop (om : Option Bitmap) (e_node : Node) :
    ℕ → AState → Option AState
  | 0, _ => none
  | fuel+1, st =>
    match popMin st.queue with
    | none => some st
    | some (pn, rest) =>
      if pn.2 = e_node then some { st with queue := rest }
      else astarLoop om e_node fuel (expandNode om e_node pn.2 { st with queue := rest })

/-- Snapping `round(p / grid) * grid` on both coordinates (`s_node` / `e_node`). -/
def sNode (p : Pt) : Node := (pyround (p.1 / 20) * 20, pyround (p.2 / 20) * 20)

/-- The initial search state: queue `[(0, s_node)]`, a `came_from` dict mapping
s_node to None, and a `cost_so_far` dict mapping s_node to 0. -/
def initState (s_node : Node) : AState :=
  { queue := [(0, s_node)]
    came_from := fun m => if m = s_node then some none else none
    cost_so_far := fun m => if m = s_node then some 0 else none }

/-- The search phase of `calculate_astar_path` on a loaded bitmap. -/
def astarSearch (bm : Bitmap) (start end_ : Pt) (fuel : ℕ) : Option AState :=
  astarLoop (some bm) (sNode end_) fuel (initState (sNode start))

/-- Path reconstruction: walk `came_from` from `e_node` back to the start
(`while curr is not None`), producing `[e_node, ..., s_node]`; `none` for a
missing dict key or exhausted fuel. -/
def reconPath (cf : Node → Option (Option Node)) : ℕ → Node → Option (List Node)
  | 0, _ => none
  | fuel+1, curr =>
    match cf curr with
    | none => none
    | some none => some [curr]
    | some (some prev) => (reconPath cf fuel prev).map (curr :: ·)

/-- The router `WireItem.calculate_astar_path` (src/ui/canvas.py:63-104): no bitmap
gives the single-bend path `[start, QPointF(e_node[0], s_node[1]), end]`;
otherwise run A*, return `[start, end]` if `e_node` never entered
`came_from`, else the reversed `came_from` chain as scene points. -/
def calculate_astar_path (om : Option Bitmap) (start end_ : Pt) (fuel : ℕ) :
    Option (List Pt) :=
  match om with
  | none => some [start, (((sNode end_).1 : ℚ), ((sNode start).2 : ℚ)), end_]
  | some bm =>
    match astarSearch bm start end_ fuel with
    | none => none
    | some st =>
      match st.came_from (sNode end_) with
      | none => some [start, end_]
      | some _ =>
        (reconPath st.came_from fuel (sNode end_)).map
          (fun l => l.reverse.map toPoint)

/-- The node chain produced by a successful (non-fallback) search, still in
`came_from` order `[e_node, ..., s_node]`. -/
def astarFound (bm : Bitmap) (start end_ : Pt) (fuel : ℕ) :
    Option (List Node) :=
  match astarSearch bm start end_ fuel with
  | none => none
  | some st =>
    match st.came_from (sNode end_) with
    | none => none
    | some _ => reconPath st.came_from fuel (sNode end_)

/-- Returns `true` iff the search ran to completion and ended with the snapped
target absent from `came_from` (the `if curr not in came_from` fallback). -/
def astarFailed (bm : Bitmap) (start end_ : Pt) (fuel : ℕ) : Bool :=
  match astarSearch bm start end_ fuel with
  | none => false
  | some st => (st.came_from (sNode end_)).isNone

/-- Wall test at a grid node: `is_wall_at(QPointF(nxt[0], nxt[1]))`. -/
def isWallN (bm : Bitmap) (n : Node) : Bool := is_wall_at (some bm) (toPoint n)

/-- One 4-connected grid move of exactly one GridUnit along one axis. -/
def IsStep (m n : Node) : Prop := ∃ d ∈ dirs, n = (m.1 + d.1, m.2 + d.2)

instance (m n : Node) : Decidable (IsStep m n) := by
  unfold IsStep; infer_instance

/-- A route through the planner grid from `s` to the target in `k` unit
steps: every node after the first is not a wall (the engine never tests
the start). -/
inductive Route (bm : Bitmap) (s : Node) : Node → ℕ → Prop
  | refl : Route bm s s 0
  | snoc {m n : Node} {k : ℕ} : Route bm s m k → IsStep m n →
      isWallN bm n = false → Route bm s n (k+1)

/-- Bookkeeping invariants of the search state: the source entries, the
parent-pointer structure of `came_from`, equality of the two dict domains,
soundness of every recorded cost (it is the length of an actual route),
cost lower bounds for queue entries, and grid alignment. -/
structure InvCore (bm : Bitmap) (s e : Node) (st : AState) : Prop where
  src_cost : st.cost_so_far s = some 0
  src_cf : st.came_from s = some none
  cf_none : ∀ n, st.came_from n = some none → n = s
  cf_step : ∀ n m, st.came_from n = some (some m) →
    IsStep m n ∧ isWallN bm n = false ∧
    ∃ cn cm, st.cost_so_far n = some cn ∧ st.cost_so_far m = some cm ∧
      cm + 20 ≤ cn
  dom : ∀ n, (st.cost_so_far n).isSome ↔ (st.came_from n).isSome
  sound : ∀ n c, st.cost_so_far n = some c →
    ∃ k : ℕ, c = 20 * (k : ℤ) ∧ Route bm s n k
  queue_cost : ∀ p n, ((p, n) : Entry) ∈ st.queue →
    ∃ c, st.cost_so_far n = some c ∧ c ≤ p
  aligned : ∀ n c, st.cost_so_far n = some c → (20 : ℤ) ∣ n.1 ∧ (20 : ℤ) ∣ n.2

/-- Frontier coverage of a costed node `n`: either a live queue entry no
worse than its current cost plus the heuristic, or every unblocked
neighbor has already been relaxed from a cost at most the current one. -/
def BNode (bm : Bitmap) (e : Node) (st : AState) (n : Node) (c : ℤ) : Prop :=
  (∃ p, ((p, n) : Entry) ∈ st.queue ∧ p ≤ c + hManhattan e n) ∨
  (∀ m, IsStep n m → isWallN bm m = false →
    ∃ cm, st.cost_so_far m = some cm ∧ cm ≤ c + 20)

/-- The full loop invariant. -/
structure Inv (bm : Bitmap) (s e : Node) (st : AState) extends
    InvCore bm s e st : Prop where
  relaxed : ∀ n c, st.cost_so_far n = some c → BNode bm e st n c

/-- Frontier coverage for every costed node other than `cur` (the node
being expanded, whose own queue entry was just popped). -/
def BExcept (bm : Bitmap) (e : Node) (st : AState) (cur : Node) : Prop :=
  ∀ n c, n ≠ cur → st.cost_so_far n = some c → BNode bm e st n c

/-- Modelled from the spec: the brute-force BFS/Dijkstra reference.
`reachable bm s k` lists every node reachable from `s` within `k` unit
steps through unblocked nodes (over the same 4-connected grid the engine
searches; the start node itself is never tested, as in the engine). -/
def reachable (bm : Bitmap) (s : Node) : ℕ → List Node
  | 0 => [s]
  | k+1 =>
    reachable bm s k ++
      ((reachable bm s k).bind
        (fun n => dirs.map (fun d => (n.1 + d.1, n.2 + d.2)))).filter
        (fun n => !(isWallN bm n))

/-- Modelled from the spec: scan outward one BFS ring at a time and return
the first step count at which the target appears. -/
def bfsGo (bm : Bitmap) (s e : Node) : ℕ → ℕ → Option ℕ
  | 0, _ => none
  | fuel+1, k => if e ∈ reachable bm s k then some k else bfsGo bm s e fuel (k+1)

/-- Modelled from the spec: the brute-force BFS shortest-path distance (in
unit steps) between `s` and `e`, `none` if not found within `fuel` rings. -/
def bfsRefDist (bm : Bitmap) (s e : Node) (fuel : ℕ) : Option ℕ :=
  bfsGo bm s e fuel 0

/-- A 1-by-1 bitmap whose only pixel is dark (a wall): the origin node is
blocked, everything else is out of bounds and therefore free. -/
def darkCell : Bitmap := ⟨1, 1, fun _ _ => 0⟩

/-- A 1-by-1 bitmap whose only pixel is light: nothing is blocked. -/
def freeCell : Bitmap := ⟨1, 1, fun _ _ => 200⟩

/-- An 80-by-80 bitmap with dark pixels exactly at the four grid neighbors
of (40,40): a start snapped to (40,40) is walled in and the frontier
empties immediately. -/
def wallBox : Bitmap :=
  ⟨80, 80, fun x y =>
    if (x = 60 ∧ y = 40) ∨ (x = 20 ∧ y = 40) ∨
       (x = 40 ∧ y = 60) ∨ (x = 40 ∧ y = 20) then 0 else 200⟩

/-- The neighbor scan of one dequeued component: each neighbor in
`current.connections` order that is not yet visited is added to the
visited set and appended to the queue (`vq = (visited, queue-tail)`). -/
def homerunScanGo {n : ℕ} :
    List (Fin n) → List (Fin n) × List (Fin n) → List (Fin n) × List (Fin n)
  | [], vq => vq
  | nb :: rest, vq =>
    homerunScanGo rest
      (if nb ∈ vq.1 then vq else (vq.1 ++ [nb], vq.2 ++ [nb]))

/-- The `while queue:` BFS loop: pop `queue.pop(0)` from the front, append
the popped component to `connected_items` unless it is the root, then scan
its `connections`.  `fuel` bounds the number of dequeue steps.  Returns
`(connected_items, visited)`. -/
def homerunLoop {n : ℕ} (conn : Fin n → List (Fin n)) (root : Fin n) :
    ℕ → List (Fin n) → List (Fin n) → List (Fin n) →
    Option (List (Fin n) × List (Fin n))
  | _, vis, [], acc => some (acc, vis)
  | 0, _, _ :: _, _ => none
  | fuel+1, vis, current :: qs, acc =>
    homerunLoop conn root fuel
      (homerunScanGo (conn current) (vis, qs)).1
      (homerunScanGo (conn current) (vis, qs)).2
      (if current = root then acc else acc ++ [current])

/-- The full traversal of `_update_homerun_folder`:
`visited = {item}; queue = [item]; connected_items = []`. -/
def homerunTraversal {n : ℕ} (conn : Fin n → List (Fin n)) (root : Fin n)
    (fuel : ℕ) : Option (List (Fin n) × List (Fin n)) :=
  homerunLoop conn root fuel [root] [root] []

/-- Reachability along the `connections` adjacency from the root. -/
inductive ConnReach {n : ℕ} (conn : Fin n → List (Fin n)) (root : Fin n) :
    Fin n → Prop
  | root : ConnReach conn root root
  | step {a b : Fin n} : ConnReach conn root a → b ∈ conn a →
      ConnReach conn root b

/-- The star topology of C8: the root 0 is connected to the children
1, 2, 3 added in that order; no further edges. -/
def starConn : Fin 4 → List (Fin 4) := fun i => if i = 0 then [1, 2, 3] else []

/-- The three-cycle of C9: edges A-B, B-C, C-A on components 0, 1, 2. -/
def cycleConn : Fin 3 → List (Fin 3) :=
  fun i => if i = 0 then [1, 2] else if i = 1 then [0, 2] else [0, 1]

/-- A 10-by-1 bitmap whose pixel column 0 is light and columns 1..9 are
dark. -/
def stripeRow : Bitmap := ⟨10, 1, fun x _ => if x = 0 then 200 else 0⟩

/-! ## Theorems -/

theorem ratFloor_eq_floor (q : ℚ) : ratFloor q = ⌊q⌋ := by
  rw [ratFloor, Int.fdiv_eq_ediv _ (Int.natCast_nonneg q.den), Rat.floor_def]

theorem pytrunc_intCast (n : ℤ) : pytrunc (n : ℚ) = n := by
  unfold pytrunc
  rw [ratFloor_eq_floor, ratFloor_eq_floor]
  split
  · rw [← Int.cast_neg, Int.floor_intCast, neg_neg]
  · exact Int.floor_intCast n

theorem entryLE_refl (a : Entry) : entryLE a a := by unfold entryLE; omega

theorem entryLE_trans {a b c : Entry} (h1 : entryLE a b) (h2 : entryLE b c) :
    entryLE a c := by
  unfold entryLE at h1 h2 ⊢; omega

theorem entryLE_total (a b : Entry) : entryLE a b ∨ entryLE b a := by
  unfold entryLE; omega

theorem entryLE_fst {a b : Entry} (h : entryLE a b) : a.1 ≤ b.1 := by
  unfold entryLE at h; omega

theorem popMin_eq_none {l : List Entry} : popMin l = none ↔ l = [] := by
  cases l with
  | nil => simp [popMin]
  | cons x xs =>
    simp only [popMin]
    cases popMin xs with
    | none => simp
    | some p =>
      obtain ⟨m, rest⟩ := p
      dsimp
      split <;> simp

theorem popMin_perm {l : List Entry} {x : Entry} {rest : List Entry}
    (h : popMin l = some (x, rest)) : l.Perm (x :: rest) := by
  induction l generalizing x rest with
  | nil => simp [popMin] at h
  | cons a as ih =>
    rw [popMin] at h
    cases has : popMin as with
    | none =>
      rw [has] at h
      simp only [Option.some.injEq, Prod.mk.injEq] at h
      obtain ⟨rfl, rfl⟩ := h
      exact List.Perm.refl _
    | some p =>
      obtain ⟨m, mrest⟩ := p
      rw [has] at h
      dsimp at h
      by_cases hle : entryLE a m
      · rw [if_pos hle] at h
        simp only [Option.some.injEq, Prod.mk.injEq] at h
        obtain ⟨rfl, rfl⟩ := h
        exact List.Perm.refl _
      · rw [if_neg hle] at h
        simp only [Option.some.injEq, Prod.mk.injEq] at h
        obtain ⟨rfl, rfl⟩ := h
        exact ((ih has).cons a).trans (List.Perm.swap m a _)

theorem popMin_min {l : List Entry} {x : Entry} {rest : List Entry}
    (h : popMin l = some (x, rest)) : ∀ y ∈ l, entryLE x y := by
  induction l generalizing x rest with
  | nil => simp [popMin] at h
  | cons a as ih =>
    rw [popMin] at h
    cases has : popMin as with
    | none =>
      have hnil : as = [] := popMin_eq_none.mp has
      subst hnil
      rw [has] at h
      simp only [Option.some.injEq, Prod.mk.injEq] at h
      obtain ⟨rfl, _⟩ := h
      intro y hy
      rcases List.mem_cons.mp hy with rfl | hy'
      · exact entryLE_refl _
      · simp at hy'
    | some p =>
      obtain ⟨m, mrest⟩ := p
      rw [has] at h
      dsimp at h
      by_cases hle : entryLE a m
      · rw [if_pos hle] at h
        simp only [Option.some.injEq, Prod.mk.injEq] at h
        obtain ⟨rfl, _⟩ := h
        intro y hy
        rcases List.mem_cons.mp hy with rfl | hy'
        · exact entryLE_refl _
        · exact entryLE_trans hle (ih has y hy')
      · rw [if_neg hle] at h
        simp only [Option.some.injEq, Prod.mk.injEq] at h
        obtain ⟨rfl, _⟩ := h
        intro y hy
        rcases List.mem_cons.mp hy with rfl | hy'
        · rcases entryLE_total m y with h1 | h1
          · exact h1
          · exact absurd h1 hle
        · exact ih has y hy'

theorem hManhattan_nonneg (e n : Node) : 0 ≤ hManhattan e n :=
  add_nonneg (abs_nonneg _) (abs_nonneg _)

theorem hManhattan_self (e : Node) : hManhattan e e = 0 := by
  unfold hManhattan; simp

theorem abs_within (a b : ℤ) : |a| ≤ |a - b| + |b| := by
  have h1 := abs_sub_abs_le_abs_sub a (a - b)
  have h2 : a - (a - b) = b := by ring
  rw [h2] at h1
  linarith

theorem hManhattan_step (e m n : Node) (h : IsStep m n) :
    hManhattan e m ≤ hManhattan e n + 20 := by
  obtain ⟨d, hd, rfl⟩ := h
  simp only [dirs, List.mem_cons, List.not_mem_nil, or_false] at hd
  unfold hManhattan
  rcases hd with rfl | rfl | rfl | rfl <;> dsimp <;> simp only [add_zero]
  · have h1 := abs_within (e.1 - m.1) 20
    have h2 : e.1 - m.1 - 20 = e.1 - (m.1 + 20) := by ring
    rw [h2] at h1
    have h3 : |(20 : ℤ)| = 20 := by norm_num
    rw [h3] at h1
    linarith
  · have h1 := abs_within (e.1 - m.1) (-20)
    have h2 : e.1 - m.1 - (-20) = e.1 - (m.1 + -20) := by ring
    rw [h2] at h1
    have h3 : |(-20 : ℤ)| = 20 := by norm_num
    rw [h3] at h1
    linarith
  · have h1 := abs_within (e.2 - m.2) 20
    have h2 : e.2 - m.2 - 20 = e.2 - (m.2 + 20) := by ring
    rw [h2] at h1
    have h3 : |(20 : ℤ)| = 20 := by norm_num
    rw [h3] at h1
    linarith
  · have h1 := abs_within (e.2 - m.2) (-20)
    have h2 : e.2 - m.2 - (-20) = e.2 - (m.2 + -20) := by ring
    rw [h2] at h1
    have h3 : |(-20 : ℤ)| = 20 := by norm_num
    rw [h3] at h1
    linarith

theorem InvCore.cost_nonneg {bm : Bitmap} {s e : Node} {st : AState}
    (h : InvCore bm s e st) {n : Node} {c : ℤ}
    (hc : st.cost_so_far n = some c) : 0 ≤ c := by
  obtain ⟨k, rfl, -⟩ := h.sound n c hc
  positivity

theorem initState_inv (bm : Bitmap) (s e : Node)
    (hs1 : (20 : ℤ) ∣ s.1) (hs2 : (20 : ℤ) ∣ s.2) :
    Inv bm s e (initState s) := by
  refine ⟨⟨?_, ?_, ?_, ?_, ?_, ?_, ?_, ?_⟩, ?_⟩
  · simp [initState]
  · simp [initState]
  · intro n hn
    simp only [initState] at hn
    by_cases h : n = s
    · exact h
    · rw [if_neg h] at hn; exact absurd hn (by simp)
  · intro n m hn
    simp only [initState] at hn
    by_cases h : n = s
    · rw [if_pos h] at hn; exact absurd hn (by simp)
    · rw [if_neg h] at hn; exact absurd hn (by simp)
  · intro n
    simp only [initState]
    by_cases h : n = s <;> simp [h]
  · intro n c hc
    simp only [initState] at hc
    by_cases h : n = s
    · subst h
      rw [if_pos rfl] at hc
      refine ⟨0, ?_, Route.refl⟩
      simp only [Option.some.injEq] at hc
      omega
    · rw [if_neg h] at hc; exact absurd hc (by simp)
  · intro p n hmem
    simp only [initState, List.mem_singleton, Prod.mk.injEq] at hmem
    obtain ⟨rfl, rfl⟩ := hmem
    exact ⟨0, by simp [initState], le_refl 0⟩
  · intro n c hc
    simp only [initState] at hc
    by_cases h : n = s
    · subst h; exact ⟨hs1, hs2⟩
    · rw [if_neg h] at hc; exact absurd hc (by simp)
  · intro n c hc
    simp only [initState] at hc
    by_cases h : n = s
    · subst h
      rw [if_pos rfl] at hc
      simp only [Option.some.injEq] at hc
      subst hc
      exact Or.inl ⟨0, by simp [initState], by
        simpa using hManhattan_nonneg e n⟩
    · rw [if_neg h] at hc; exact absurd hc (by simp)

theorem relaxDir_of_wall {om : Option Bitmap} {e cur : Node} {st : AState}
    {d : Node}
    (hw : is_wall_at om (toPoint (cur.1 + d.1, cur.2 + d.2)) = true) :
    relaxDir om e cur st d = st := by
  simp [relaxDir, hw]

theorem relaxDir_of_stay {om : Option Bitmap} {e cur : Node} {st : AState}
    {d : Node}
    (hw : is_wall_at om (toPoint (cur.1 + d.1, cur.2 + d.2)) = false)
    (hi : improves st cur (cur.1 + d.1, cur.2 + d.2) = false) :
    relaxDir om e cur st d = st := by
  simp [relaxDir, hw, hi]

theorem relaxDir_of_improve {om : Option Bitmap} {e cur : Node} {st : AState}
    {d : Node}
    (hw : is_wall_at om (toPoint (cur.1 + d.1, cur.2 + d.2)) = false)
    (hi : improves st cur (cur.1 + d.1, cur.2 + d.2) = true) :
    relaxDir om e cur st d =
      { queue := st.queue ++
          [((st.cost_so_far cur).getD 0 + 20 +
              hManhattan e (cur.1 + d.1, cur.2 + d.2),
            (cur.1 + d.1, cur.2 + d.2))]
        came_from := fun m => if m = (cur.1 + d.1, cur.2 + d.2)
          then some (some cur) else st.came_from m
        cost_so_far := fun m => if m = (cur.1 + d.1, cur.2 + d.2)
          then some ((st.cost_so_far cur).getD 0 + 20)
          else st.cost_so_far m } := by
  simp [relaxDir, hw, hi]

theorem improves_true {st : AState} {cur nxt : Node} {ccur : ℤ}
    (hcur : st.cost_so_far cur = some ccur)
    (hi : improves st cur nxt = true) :
    st.cost_so_far nxt = none ∨
    ∃ c, st.cost_so_far nxt = some c ∧ ccur + 20 < c := by
  unfold improves at hi
  cases hnxt : st.cost_so_far nxt with
  | none => exact Or.inl rfl
  | some c =>
    rw [hnxt, hcur] at hi
    simp only [Option.getD_some, decide_eq_true_eq] at hi
    exact Or.inr ⟨c, rfl, hi⟩

theorem improves_false {st : AState} {cur nxt : Node} {ccur : ℤ}
    (hcur : st.cost_so_far cur = some ccur)
    (hi : improves st cur nxt = false) :
    ∃ c, st.cost_so_far nxt = some c ∧ c ≤ ccur + 20 := by
  unfold improves at hi
  cases hnxt : st.cost_so_far nxt with
  | none => rw [hnxt] at hi; exact absurd hi (by simp)
  | some c =>
    rw [hnxt, hcur] at hi
    simp only [Option.getD_some, decide_eq_false_iff_not, not_lt] at hi
    exact ⟨c, rfl, hi⟩

theorem dirs_ne {cur d : Node} (hd : d ∈ dirs) :
    (cur.1 + d.1, cur.2 + d.2) ≠ cur := by
  simp only [dirs, List.mem_cons, List.not_mem_nil, or_false] at hd
  rcases hd with rfl | rfl | rfl | rfl <;>
    (intro h; rw [Prod.ext_iff] at h; dsimp at h; omega)

theorem dirs_dvd {d : Node} (hd : d ∈ dirs) :
    (20 : ℤ) ∣ d.1 ∧ (20 : ℤ) ∣ d.2 := by
  simp only [dirs, List.mem_cons, List.not_mem_nil, or_false] at hd
  rcases hd with rfl | rfl | rfl | rfl
  · exact ⟨⟨1, by norm_num⟩, ⟨0, by norm_num⟩⟩
  · exact ⟨⟨-1, by norm_num⟩, ⟨0, by norm_num⟩⟩
  · exact ⟨⟨0, by norm_num⟩, ⟨1, by norm_num⟩⟩
  · exact ⟨⟨0, by norm_num⟩, ⟨-1, by norm_num⟩⟩

theorem dirs_step {cur : Node} {d : Node} (hd : d ∈ dirs) :
    IsStep cur (cur.1 + d.1, cur.2 + d.2) := ⟨d, hd, rfl⟩

theorem relaxDir_spec (bm : Bitmap) (s e cur : Node) (ccur : ℤ) (st : AState)
    (d : Node) (hd : d ∈ dirs) (hcore : InvCore bm s e st)
    (hbex : BExcept bm e st cur) (hcur : st.cost_so_far cur = some ccur) :
    InvCore bm s e (relaxDir (some bm) e cur st d) ∧
    BExcept bm e (relaxDir (some bm) e cur st d) cur ∧
    (relaxDir (some bm) e cur st d).cost_so_far cur = some ccur ∧
    (isWallN bm (cur.1 + d.1, cur.2 + d.2) = false →
      ∃ cm, (relaxDir (some bm) e cur st d).cost_so_far
          (cur.1 + d.1, cur.2 + d.2) = some cm ∧ cm ≤ ccur + 20) ∧
    (∀ n c, st.cost_so_far n = some c →
      ∃ c2, (relaxDir (some bm) e cur st d).cost_so_far n = some c2 ∧ c2 ≤ c) ∧
    (∀ x ∈ st.queue, x ∈ (relaxDir (some bm) e cur st d).queue) := by
  cases hw : is_wall_at (some bm) (toPoint (cur.1 + d.1, cur.2 + d.2)) with
  | true =>
    rw [relaxDir_of_wall hw]
    refine ⟨hcore, hbex, hcur, ?_, fun n c hc => ⟨c, hc, le_refl c⟩,
      fun x hx => hx⟩
    intro hfree
    unfold isWallN at hfree
    rw [hw] at hfree
    exact absurd hfree (by simp)
  | false =>
    cases hi : improves st cur (cur.1 + d.1, cur.2 + d.2) with
    | false =>
      rw [relaxDir_of_stay hw hi]
      obtain ⟨cm, hcm, hcmle⟩ := improves_false hcur hi
      exact ⟨hcore, hbex, hcur, fun _ => ⟨cm, hcm, hcmle⟩,
        fun n c hc => ⟨c, hc, le_refl c⟩, fun x hx => hx⟩
    | true =>
      have hne : (cur.1 + d.1, cur.2 + d.2) ≠ cur := dirs_ne hd
      have hccur0 : (0 : ℤ) ≤ ccur := hcore.cost_nonneg hcur
      have himpr := improves_true hcur hi
      have hnes : (cur.1 + d.1, cur.2 + d.2) ≠ s := by
        intro heq
        rcases himpr with hnone | ⟨c0, hc0, hlt⟩
        · rw [heq, hcore.src_cost] at hnone
          exact absurd hnone (by simp)
        · rw [heq, hcore.src_cost] at hc0
          simp only [Option.some.injEq] at hc0
          omega
      rw [relaxDir_of_improve hw hi, hcur]
      simp only [Option.getD_some]
      refine ⟨⟨?_, ?_, ?_, ?_, ?_, ?_, ?_, ?_⟩, ?_, ?_, ?_, ?_, ?_⟩
      · -- src_cost
        (try dsimp only)
        rw [if_neg fun h => hnes h.symm]
        exact hcore.src_cost
      · -- src_cf
        (try dsimp only)
        rw [if_neg fun h => hnes h.symm]
        exact hcore.src_cf
      · -- cf_none
        intro n hn
        dsimp only at hn
        by_cases h : n = (cur.1 + d.1, cur.2 + d.2)
        · rw [if_pos h] at hn; exact absurd hn (by simp)
        · rw [if_neg h] at hn; exact hcore.cf_none n hn
      · -- cf_step
        intro n m hn
        dsimp only at hn
        by_cases h : n = (cur.1 + d.1, cur.2 + d.2)
        · rw [if_pos h] at hn
          simp only [Option.some.injEq] at hn
          subst h
          subst hn
          refine ⟨dirs_step hd, by unfold isWallN; exact hw,
            ccur + 20, ccur, by simp,
            by (try dsimp only); rw [if_neg fun hh => hne hh.symm]; exact hcur,
            le_refl _⟩
        · rw [if_neg h] at hn
          obtain ⟨hstep, hwall, cn, cm, hcn, hcm, hle⟩ := hcore.cf_step n m hn
          refine ⟨hstep, hwall, ?_⟩
          by_cases hm : m = (cur.1 + d.1, cur.2 + d.2)
          · subst hm
            rcases himpr with hnone | ⟨c0, hc0, hlt⟩
            · rw [hcm] at hnone; exact absurd hnone (by simp)
            · rw [hcm] at hc0
              simp only [Option.some.injEq] at hc0
              subst hc0
              exact ⟨cn, ccur + 20,
                by (try dsimp only); rw [if_neg h]; exact hcn,
                by simp, by omega⟩
          · exact ⟨cn, cm, by (try dsimp only); rw [if_neg h]; exact hcn,
              by (try dsimp only); rw [if_neg hm]; exact hcm, hle⟩
      · -- dom
        intro n
        (try dsimp only)
        by_cases h : n = (cur.1 + d.1, cur.2 + d.2)
        · rw [if_pos h, if_pos h]; simp
        · rw [if_neg h, if_neg h]; exact hcore.dom n
      · -- sound
        intro n c hc
        dsimp only at hc
        by_cases h : n = (cur.1 + d.1, cur.2 + d.2)
        · rw [if_pos h] at hc
          simp only [Option.some.injEq] at hc
          subst h
          obtain ⟨k, hk, hroute⟩ := hcore.sound cur ccur hcur
          refine ⟨k + 1, by push_cast; omega,
            Route.snoc hroute (dirs_step hd) (by unfold isWallN; exact hw)⟩
        · rw [if_neg h] at hc; exact hcore.sound n c hc
      · -- queue_cost
        intro p n hmem
        dsimp only at hmem
        rcases List.mem_append.mp hmem with hold | hnew
        · obtain ⟨c, hcn, hcle⟩ := hcore.queue_cost p n hold
          by_cases h : n = (cur.1 + d.1, cur.2 + d.2)
          · subst h
            rcases himpr with hnone | ⟨c0, hc0, hlt⟩
            · rw [hcn] at hnone; exact absurd hnone (by simp)
            · rw [hcn] at hc0
              simp only [Option.some.injEq] at hc0
              subst hc0
              exact ⟨ccur + 20, by simp, by omega⟩
          · exact ⟨c, by (try dsimp only); rw [if_neg h]; exact hcn, hcle⟩
        · simp only [List.mem_singleton, Prod.mk.injEq] at hnew
          obtain ⟨rfl, rfl⟩ := hnew
          refine ⟨ccur + 20, by simp, ?_⟩
          have := hManhattan_nonneg e (cur.1 + d.1, cur.2 + d.2)
          linarith
      · -- aligned
        intro n c hc
        dsimp only at hc
        by_cases h : n = (cur.1 + d.1, cur.2 + d.2)
        · subst h
          obtain ⟨h1, h2⟩ := hcore.aligned cur ccur hcur
          obtain ⟨hd1, hd2⟩ := dirs_dvd hd
          exact ⟨dvd_add h1 hd1, dvd_add h2 hd2⟩
        · rw [if_neg h] at hc; exact hcore.aligned n c hc
      · -- BExcept
        intro n c hn hc
        dsimp only at hc
        by_cases h : n = (cur.1 + d.1, cur.2 + d.2)
        · subst h
          rw [if_pos rfl] at hc
          simp only [Option.some.injEq] at hc
          subst hc
          left
          refine ⟨ccur + 20 + hManhattan e (cur.1 + d.1, cur.2 + d.2), ?_, le_refl _⟩
          (try dsimp only)
          exact List.mem_append_right _ (List.mem_singleton.mpr rfl)
        · rw [if_neg h] at hc
          rcases hbex n c hn hc with ⟨p, hp, hple⟩ | hall
          · left
            exact ⟨p, by (try dsimp only); exact List.mem_append_left _ hp, hple⟩
          · right
            intro m hstep hwall
            obtain ⟨cm, hcm, hcmle⟩ := hall m hstep hwall
            by_cases hm : m = (cur.1 + d.1, cur.2 + d.2)
            · subst hm
              rcases himpr with hnone | ⟨c0, hc0, hlt⟩
              · rw [hcm] at hnone; exact absurd hnone (by simp)
              · rw [hcm] at hc0
                simp only [Option.some.injEq] at hc0
                subst hc0
                exact ⟨ccur + 20, by simp, by omega⟩
            · exact ⟨cm, by (try dsimp only); rw [if_neg hm]; exact hcm, hcmle⟩
      · -- cost at cur preserved
        (try dsimp only)
        rw [if_neg fun h => hne h.symm]
        exact hcur
      · -- bound for this direction
        intro _
        exact ⟨ccur + 20, by simp, le_refl _⟩
      · -- cost monotone
        intro n c hc
        by_cases h : n = (cur.1 + d.1, cur.2 + d.2)
        · subst h
          rcases himpr with hnone | ⟨c0, hc0, hlt⟩
          · rw [hc] at hnone; exact absurd hnone (by simp)
          · rw [hc] at hc0
            simp only [Option.some.injEq] at hc0
            subst hc0
            exact ⟨ccur + 20, by simp, by omega⟩
        · exact ⟨c, by (try dsimp only); rw [if_neg h]; exact hc, le_refl c⟩
      · -- queue superset
        intro x hx
        (try dsimp only)
        exact List.mem_append_left _ hx

theorem foldRelax (bm : Bitmap) (s e cur : Node) (ccur : ℤ) :
    ∀ ds : List Node, (∀ d ∈ ds, d ∈ dirs) →
    ∀ st : AState, InvCore bm s e st → BExcept bm e st cur →
    st.cost_so_far cur = some ccur →
    InvCore bm s e (ds.foldl (relaxDir (some bm) e cur) st) ∧
    BExcept bm e (ds.foldl (relaxDir (some bm) e cur) st) cur ∧
    (ds.foldl (relaxDir (some bm) e cur) st).cost_so_far cur = some ccur ∧
    (∀ d ∈ ds, isWallN bm (cur.1 + d.1, cur.2 + d.2) = false →
      ∃ cm, (ds.foldl (relaxDir (some bm) e cur) st).cost_so_far
          (cur.1 + d.1, cur.2 + d.2) = some cm ∧ cm ≤ ccur + 20) ∧
    (∀ n c, st.cost_so_far n = some c →
      ∃ c2, (ds.foldl (relaxDir (some bm) e cur) st).cost_so_far n = some c2 ∧
        c2 ≤ c) := by
  intro ds
  induction ds with
  | nil =>
    intro _ st h1 h2 h3
    exact ⟨h1, h2, h3, by simp, fun n c hc => ⟨c, hc, le_refl c⟩⟩
  | cons d ds ih =>
    intro hds st h1 h2 h3
    have hd : d ∈ dirs := hds d (List.mem_cons_self d ds)
    obtain ⟨g1, g2, g3, g4, g5, g6⟩ := relaxDir_spec bm s e cur ccur st d hd h1 h2 h3
    obtain ⟨f1, f2, f3, f4, f5⟩ :=
      ih (fun x hx => hds x (List.mem_cons_of_mem d hx)) _ g1 g2 g3
    rw [List.foldl_cons]
    refine ⟨f1, f2, f3, ?_, ?_⟩
    · intro d2 hd2 hfree
      rcases List.mem_cons.mp hd2 with rfl | hd2'
      · obtain ⟨cm, hcm, hcmle⟩ := g4 hfree
        obtain ⟨c2, hc2, hc2le⟩ := f5 _ cm hcm
        exact ⟨c2, hc2, le_trans hc2le hcmle⟩
      · exact f4 d2 hd2' hfree
    · intro n c hc
      obtain ⟨c2, hc2, hc2le⟩ := g5 n c hc
      obtain ⟨c3, hc3, hc3le⟩ := f5 n c2 hc2
      exact ⟨c3, hc3, le_trans hc3le hc2le⟩

theorem expandNode_inv (bm : Bitmap) (s e : Node) (st : AState) (p : ℤ)
    (cur : Node) (rest : List Entry) (hInv : Inv bm s e st)
    (hpop : popMin st.queue = some ((p, cur), rest)) :
    Inv bm s e (expandNode (some bm) e cur { st with queue := rest }) := by
  have hperm := popMin_perm hpop
  have hmem : ((p, cur) : Entry) ∈ st.queue :=
    hperm.mem_iff.mpr (List.mem_cons_self _ _)
  obtain ⟨ccur, hccur, -⟩ := hInv.queue_cost p cur hmem
  have hsub : ∀ x ∈ rest, x ∈ st.queue := fun x hx =>
    hperm.mem_iff.mpr (List.mem_cons_of_mem _ hx)
  have hcore1 : InvCore bm s e { st with queue := rest } :=
    ⟨hInv.src_cost, hInv.src_cf, hInv.cf_none, hInv.cf_step, hInv.dom,
      hInv.sound, fun p2 n2 hmem2 => hInv.queue_cost p2 n2 (hsub _ hmem2),
      hInv.aligned⟩
  have hbex1 : BExcept bm e { st with queue := rest } cur := by
    intro n c hn hc
    rcases hInv.relaxed n c hc with ⟨p2, hp2, hple⟩ | hall
    · left
      refine ⟨p2, ?_, hple⟩
      rcases List.mem_cons.mp (hperm.mem_iff.mp hp2) with heq | hr
      · rw [Prod.ext_iff] at heq
        exact absurd heq.2 hn
      · exact hr
    · exact Or.inr hall
  obtain ⟨f1, f2, f3, f4, -⟩ :=
    foldRelax bm s e cur ccur dirs (fun d hd => hd) _ hcore1 hbex1 hccur
  refine ⟨f1, ?_⟩
  intro n c hc
  unfold expandNode at hc
  by_cases h : n = cur
  · subst h
    right
    intro m hstep hwall
    obtain ⟨d, hd, rfl⟩ := hstep
    have hcc : c = ccur := by
      rw [hc] at f3
      exact (Option.some.inj f3)
    obtain ⟨cm, hcm, hcmle⟩ := f4 d hd hwall
    exact ⟨cm, hcm, by omega⟩
  · exact f2 n c h hc

theorem seek (bm : Bitmap) (s e : Node) (st : AState) (hInv : Inv bm s e st) :
    ∀ t k, Route bm s t k →
    (∃ c, st.cost_so_far t = some c ∧ c ≤ 20 * (k : ℤ)) ∨
    (∃ n p cn, ∃ kn : ℕ, ((p, n) : Entry) ∈ st.queue ∧
      st.cost_so_far n = some cn ∧ cn ≤ 20 * (kn : ℤ) ∧
      p ≤ cn + hManhattan e n ∧
      20 * (kn : ℤ) + hManhattan e n ≤ 20 * (k : ℤ) + hManhattan e t) := by
  intro t k hroute
  induction hroute with
  | refl => exact Or.inl ⟨0, hInv.src_cost, by simp⟩
  | @snoc m n' k' hR hstep hwall ih =>
    have hstepbound := hManhattan_step e m n' hstep
    rcases ih with ⟨cm, hcm, hcmle⟩ | ⟨n, p, cn, kn, hmem, hcn, hcnle, hple, htr⟩
    · rcases hInv.relaxed m cm hcm with ⟨pm, hpmem, hpmle⟩ | hall
      · refine Or.inr ⟨m, pm, cm, k', hpmem, hcm, hcmle, hpmle, ?_⟩
        push_cast
        linarith
      · obtain ⟨cn', hcn', hlecn'⟩ := hall n' hstep hwall
        refine Or.inl ⟨cn', hcn', ?_⟩
        push_cast
        linarith
    · refine Or.inr ⟨n, p, cn, kn, hmem, hcn, hcnle, hple, ?_⟩
      push_cast at htr ⊢
      linarith

theorem astarLoop_spec (bm : Bitmap) (s e : Node) :
    ∀ (fuel : ℕ) (st st' : AState), Inv bm s e st →
    astarLoop (some bm) e fuel st = some st' →
    InvCore bm s e st' ∧
    (∀ k : ℕ, Route bm s e k →
      ∃ c, st'.cost_so_far e = some c ∧ c ≤ 20 * (k : ℤ)) := by
  intro fuel
  induction fuel with
  | zero => intro st st' _ h; exact absurd h (by simp [astarLoop])
  | succ fuel ih =>
    intro st st' hInv h
    rw [astarLoop] at h
    cases hpop : popMin st.queue with
    | none =>
      rw [hpop] at h
      simp only [Option.some.injEq] at h
      subst h
      have hq : st.queue = [] := popMin_eq_none.mp hpop
      refine ⟨hInv.toInvCore, ?_⟩
      intro k hroute
      rcases seek bm s e st hInv e k hroute with ⟨c, hc, hle⟩ | ⟨n, p, _, _, hmem, _⟩
      · exact ⟨c, hc, hle⟩
      · rw [hq] at hmem
        exact absurd hmem (List.not_mem_nil _)
    | some pr =>
      obtain ⟨⟨p, cur⟩, rest⟩ := pr
      rw [hpop] at h
      dsimp at h
      by_cases hcur_e : cur = e
      · rw [if_pos hcur_e] at h
        simp only [Option.some.injEq] at h
        subst h
        have hmem : ((p, cur) : Entry) ∈ st.queue :=
          (popMin_perm hpop).mem_iff.mpr (List.mem_cons_self _ _)
        refine ⟨⟨hInv.src_cost, hInv.src_cf, hInv.cf_none, hInv.cf_step,
          hInv.dom, hInv.sound, ?_, hInv.aligned⟩, ?_⟩
        · intro p2 n2 hmem2
          exact hInv.queue_cost p2 n2
            ((popMin_perm hpop).mem_iff.mpr (List.mem_cons_of_mem _ hmem2))
        · intro k hroute
          obtain ⟨ce, hce, hcele⟩ := hInv.queue_cost p cur hmem
          rw [hcur_e] at hce
          refine ⟨ce, hce, ?_⟩
          rcases seek bm s e st hInv e k hroute with ⟨c, hc, hle⟩ |
            ⟨n, p2, cn, kn, hmem2, hcn, hcnle, hple, htr⟩
          · rw [hce] at hc
            have := Option.some.inj hc
            omega
          · have hminle : entryLE (p, cur) (p2, n) := popMin_min hpop _ hmem2
            have hpp2 : p ≤ p2 := entryLE_fst hminle
            rw [hManhattan_self] at htr
            have hh := hManhattan_nonneg e n
            push_cast at htr hcnle ⊢
            linarith
      · rw [if_neg hcur_e] at h
        exact ih _ _ (expandNode_inv bm s e st p cur rest hInv hpop) h
theorem reconPath_spec (bm : Bitmap) (s e : Node) (st : AState)
    (hcore : InvCore bm s e st) :
    ∀ (fuel : ℕ) (curr : Node) (l : List Node),
    reconPath st.came_from fuel curr = some l →
    l.head? = some curr ∧ l.getLast? = some s ∧
    Route bm s curr (l.length - 1) ∧
    (∀ c, st.cost_so_far curr = some c → 20 * ((l.length : ℤ) - 1) ≤ c) ∧
    (∀ x ∈ l, (st.cost_so_far x).isSome) ∧
    List.Chain' (fun a b => IsStep b a ∧ isWallN bm a = false) l := by
  intro fuel
  induction fuel with
  | zero => intro curr l h; exact absurd h (by simp [reconPath])
  | succ fuel ih =>
    intro curr l h
    rw [reconPath] at h
    cases hcf : st.came_from curr with
    | none => rw [hcf] at h; exact absurd h (by simp)
    | some o =>
      cases o with
      | none =>
        rw [hcf] at h
        dsimp only at h
        simp only [Option.some.injEq] at h
        subst h
        have hs : curr = s := hcore.cf_none curr hcf
        subst hs
        refine ⟨rfl, rfl, by simpa using Route.refl, ?_, ?_, by simp⟩
        · intro c hc
          have h0 := hcore.cost_nonneg hc
          simpa using h0
        · intro x hx
          simp only [List.mem_singleton] at hx
          subst hx
          exact (hcore.dom x).mpr (by simp [hcf])
      | some prev =>
        rw [hcf] at h
        dsimp only at h
        cases hrec : reconPath st.came_from fuel prev with
        | none => rw [hrec] at h; exact absurd h (by simp)
        | some l2 =>
          rw [hrec] at h
          simp at h
          subst h
          obtain ⟨hhead, hlast, hroute, hcost, hdom, hchain⟩ := ih prev l2 hrec
          obtain ⟨hstep, hwall, cn, cm, hcn, hcm, hle⟩ :=
            hcore.cf_step curr prev hcf
          obtain ⟨p2, l2tl, rfl⟩ : ∃ p2 l2tl, l2 = p2 :: l2tl := by
            cases l2 with
            | nil => exact absurd hhead (by simp)
            | cons a b => exact ⟨a, b, rfl⟩
          simp only [List.head?_cons, Option.some.injEq] at hhead
          subst hhead
          refine ⟨rfl, ?_, ?_, ?_, ?_, ?_⟩
          · rw [List.getLast?_cons_cons]
            exact hlast
          · have hr := Route.snoc hroute hstep hwall
            simpa using hr
          · intro c hc
            rw [hcn] at hc
            have hceq := Option.some.inj hc
            have hbound := hcost cm hcm
            simp only [List.length_cons] at hbound ⊢
            push_cast at hbound ⊢
            linarith
          · intro x hx
            rcases List.mem_cons.mp hx with rfl | hx2
            · simp [hcn]
            · exact hdom x hx2
          · exact List.chain'_cons.mpr ⟨⟨hstep, hwall⟩, hchain⟩

theorem sNode_aligned (p : Pt) :
    (20 : ℤ) ∣ (sNode p).1 ∧ (20 : ℤ) ∣ (sNode p).2 :=
  ⟨⟨pyround (p.1 / 20), mul_comm _ _⟩, ⟨pyround (p.2 / 20), mul_comm _ _⟩⟩

theorem astarFound_cases {bm : Bitmap} {start end_ : Pt} {fuel : ℕ}
    {l : List Node} (h : astarFound bm start end_ fuel = some l) :
    ∃ st, astarSearch bm start end_ fuel = some st ∧
      (st.came_from (sNode end_)).isSome = true ∧
      reconPath st.came_from fuel (sNode end_) = some l := by
  unfold astarFound at h
  cases hs : astarSearch bm start end_ fuel with
  | none => rw [hs] at h; exact absurd h (by simp)
  | some st =>
    rw [hs] at h
    dsimp only at h
    cases hcf : st.came_from (sNode end_) with
    | none => rw [hcf] at h; exact absurd h (by simp)
    | some o =>
      rw [hcf] at h
      exact ⟨st, rfl, by simp [hcf], h⟩

theorem calculate_eq_of_found {bm : Bitmap} {start end_ : Pt} {fuel : ℕ}
    {l : List Node} (h : astarFound bm start end_ fuel = some l) :
    calculate_astar_path (some bm) start end_ fuel =
      some (l.reverse.map toPoint) := by
  obtain ⟨st, hs, hcf, hrec⟩ := astarFound_cases h
  unfold calculate_astar_path
  dsimp only
  rw [hs]
  cases hcfv : st.came_from (sNode end_) with
  | none => rw [hcfv] at hcf; simp at hcf
  | some o =>
    dsimp only
    rw [hcfv]
    dsimp only
    rw [hrec]
    rfl

theorem astarSearch_invariants {bm : Bitmap} {start end_ : Pt} {fuel : ℕ}
    {st : AState} (hs : astarSearch bm start end_ fuel = some st) :
    InvCore bm (sNode start) (sNode end_) st ∧
    (∀ k : ℕ, Route bm (sNode start) (sNode end_) k →
      ∃ c, st.cost_so_far (sNode end_) = some c ∧ c ≤ 20 * (k : ℤ)) := by
  unfold astarSearch at hs
  exact astarLoop_spec bm (sNode start) (sNode end_) fuel _ st
    (initState_inv bm (sNode start) (sNode end_)
      (sNode_aligned start).1 (sNode_aligned start).2) hs

theorem mem_reachable (bm : Bitmap) (s : Node) :
    ∀ (k : ℕ) (n : Node),
    n ∈ reachable bm s k ↔ ∃ j, j ≤ k ∧ Route bm s n j := by
  intro k
  induction k with
  | zero =>
    intro n
    simp only [reachable, List.mem_singleton]
    constructor
    · rintro rfl
      exact ⟨0, le_refl 0, Route.refl⟩
    · rintro ⟨j, hj, hroute⟩
      have hj0 : j = 0 := Nat.le_zero.mp hj
      subst hj0
      cases hroute
      rfl
  | succ k ih =>
    intro n
    rw [reachable]
    rw [List.mem_append]
    constructor
    · rintro (hprev | hnew)
      · obtain ⟨j, hj, hr⟩ := (ih n).mp hprev
        exact ⟨j, Nat.le_succ_of_le hj, hr⟩
      · obtain ⟨hmem, hwall⟩ := List.mem_filter.mp hnew
        obtain ⟨m, hmprev, hmap⟩ := List.mem_bind.mp hmem
        obtain ⟨d, hd, heq⟩ := List.mem_map.mp hmap
        obtain ⟨j, hj, hr⟩ := (ih m).mp hmprev
        refine ⟨j + 1, Nat.succ_le_succ hj,
          Route.snoc hr ⟨d, hd, heq.symm⟩ ?_⟩
        simpa using hwall
    · rintro ⟨j, hj, hroute⟩
      by_cases hjk : j ≤ k
      · exact Or.inl ((ih n).mpr ⟨j, hjk, hroute⟩)
      · have hjeq : j = k + 1 := by omega
        subst hjeq
        cases hroute with
        | snoc hr hstep hwall =>
          rename_i m
          right
          refine List.mem_filter.mpr ⟨?_, by simp [hwall]⟩
          refine List.mem_bind.mpr ⟨m, (ih m).mpr ⟨k, le_refl k, hr⟩, ?_⟩
          obtain ⟨d, hd, rfl⟩ := hstep
          exact List.mem_map.mpr ⟨d, hd, rfl⟩

theorem bfsGo_correct (bm : Bitmap) (s e : Node) :
    ∀ fuel k0 d : ℕ, bfsGo bm s e fuel k0 = some d →
    k0 ≤ d ∧ e ∈ reachable bm s d ∧
    ∀ j, k0 ≤ j → j < d → e ∉ reachable bm s j := by
  intro fuel
  induction fuel with
  | zero => intro k0 d h; exact absurd h (by simp [bfsGo])
  | succ fuel ih =>
    intro k0 d h
    rw [bfsGo] at h
    by_cases hmem : e ∈ reachable bm s k0
    · rw [if_pos hmem] at h
      have hd : k0 = d := Option.some.inj h
      subst hd
      exact ⟨le_refl _, hmem, fun j hj1 hj2 => absurd hj1 (by omega)⟩
    · rw [if_neg hmem] at h
      obtain ⟨h1, h2, h3⟩ := ih (k0+1) d h
      refine ⟨by omega, h2, ?_⟩
      intro j hj1 hj2
      by_cases hj : j = k0
      · subst hj; exact hmem
      · exact h3 j (by omega) hj2

theorem bfsRefDist_shortest (bm : Bitmap) (s e : Node) (fuel k : ℕ)
    (h : bfsRefDist bm s e fuel = some k) :
    Route bm s e k ∧ ∀ j, Route bm s e j → k ≤ j := by
  obtain ⟨-, h2, h3⟩ := bfsGo_correct bm s e fuel 0 k h
  have hmin : ∀ j2, Route bm s e j2 → k ≤ j2 := by
    intro j2 hr2
    by_contra hlt
    push_neg at hlt
    exact h3 j2 (Nat.zero_le _) hlt
      ((mem_reachable bm s j2 e).mpr ⟨j2, le_refl _, hr2⟩)
  obtain ⟨j, hj, hroute⟩ := (mem_reachable bm s k e).mp h2
  have hjk : j = k := le_antisymm hj (hmin j hroute)
  subst hjk
  exact ⟨hroute, hmin⟩

theorem astarFound_intro {bm : Bitmap} {start end_ : Pt} {fuel : ℕ}
    {st : AState} {o : Option Node} {l : List Node}
    (hs : astarSearch bm start end_ fuel = some st)
    (hcf : st.came_from (sNode end_) = some o)
    (hrec : reconPath st.came_from fuel (sNode end_) = some l) :
    astarFound bm start end_ fuel = some l := by
  unfold astarFound
  rw [hs]
  dsimp only
  rw [hcf]
  dsimp only
  exact hrec

theorem astarFound_aligned {bm : Bitmap} {start end_ : Pt} {fuel : ℕ}
    {l : List Node} (h : astarFound bm start end_ fuel = some l) :
    ∀ n ∈ l, (20 : ℤ) ∣ n.1 ∧ (20 : ℤ) ∣ n.2 := by
  obtain ⟨st, hs, hcf, hrec⟩ := astarFound_cases h
  obtain ⟨hcore, -⟩ := astarSearch_invariants hs
  obtain ⟨-, -, -, -, hdom, -⟩ := reconPath_spec bm _ _ st hcore fuel _ l hrec
  intro n hn
  obtain ⟨c, hc⟩ := Option.isSome_iff_exists.mp (hdom n hn)
  exact hcore.aligned n c hc

/-- C1 (amended): every path returned by the A* search proper (not the
no-bitmap degenerate case, not the search-failure fallback) is the
reversed `came_from` chain: it starts at the snapped start node, every
consecutive pair of its nodes differs by exactly one GridUnit (20) along
exactly one axis, and the second node of every such pair is not blocked —
equivalently, every node except possibly the snapped start is unblocked.
(The engine never wall-tests the snapped start, which can be blocked: see
`C1_counterexample`; the original claim said neither node of any pair is
blocked.) -/
theorem C1_wall_avoidance_amended (bm : Bitmap) (start end_ : Pt)
    (fuel : ℕ) (l : List Node)
    (h : astarFound bm start end_ fuel = some l) :
    calculate_astar_path (some bm) start end_ fuel =
      some (l.reverse.map toPoint) ∧
    l.reverse.head? = some (sNode start) ∧
    List.Chain' (fun a b : Node => IsStep a b ∧ isWallN bm b = false)
      l.reverse := by
  obtain ⟨st, hs, hcf, hrec⟩ := astarFound_cases h
  obtain ⟨hcore, -⟩ := astarSearch_invariants hs
  obtain ⟨hhead, hlast, -, -, -, hchain⟩ :=
    reconPath_spec bm _ _ st hcore fuel _ l hrec
  refine ⟨calculate_eq_of_found h, ?_, ?_⟩
  · rw [List.head?_reverse]
    exact hlast
  · rw [List.chain'_reverse]
    exact hchain

/-- Witness for C1: a concrete free 1-by-1 grid, start (0,0), end (20,0);
the search returns [(0,0),(20,0)] and the amended properties hold. -/
theorem C1_wall_avoidance_witness :
    calculate_astar_path (some freeCell) ((0:ℚ),(0:ℚ)) ((20:ℚ),(0:ℚ)) 3 =
      some (([((20:ℤ),(0:ℤ)), ((0:ℤ),(0:ℤ))] : List Node).reverse.map toPoint) ∧
    ([((20:ℤ),(0:ℤ)), ((0:ℤ),(0:ℤ))] : List Node).reverse.head? =
      some (sNode ((0:ℚ),(0:ℚ))) ∧
    List.Chain' (fun a b : Node => IsStep a b ∧ isWallN freeCell b = false)
      ([((20:ℤ),(0:ℤ)), ((0:ℤ),(0:ℤ))] : List Node).reverse :=
  C1_wall_avoidance_amended freeCell ((0:ℚ),(0:ℚ)) ((20:ℚ),(0:ℚ)) 3
    [((20:ℤ),(0:ℤ)), ((0:ℤ),(0:ℤ))] (by decide)

/-- C1 counterexample: with the single dark pixel at the origin, the
snapped start node (0,0) is blocked, yet the search succeeds (it is not
the fallback: `astarFound` returns the chain) and the returned path
[(0,0),(20,0)] has a consecutive pair whose first node is blocked —
refuting "neither node of any such pair is blocked". -/
theorem C1_counterexample :
    astarFound darkCell ((0:ℚ),(0:ℚ)) ((20:ℚ),(0:ℚ)) 3 =
      some [((20:ℤ),(0:ℤ)), ((0:ℤ),(0:ℤ))] ∧
    calculate_astar_path (some darkCell) ((0:ℚ),(0:ℚ)) ((20:ℚ),(0:ℚ)) 3 =
      some [((0:ℚ),(0:ℚ)), ((20:ℚ),(0:ℚ))] ∧
    isWallN darkCell ((0:ℤ),(0:ℤ)) = true ∧
    IsStep ((0:ℤ),(0:ℤ)) ((20:ℤ),(0:ℤ)) := by decide

/-- C2 (amended): whenever the search ends with the snapped target absent
from `came_from` — in particular whenever the frontier empties before
reaching it — `calculate_astar_path` returns the TWO-point straight path
`[start, end]`, not the three-point bend used in the no-bitmap case
(which the original claim asserted). -/
theorem C2_fallback_amended (bm : Bitmap) (start end_ : Pt) (fuel : ℕ)
    (h : astarFailed bm start end_ fuel = true) :
    calculate_astar_path (some bm) start end_ fuel = some [start, end_] := by
  unfold astarFailed at h
  unfold calculate_astar_path
  dsimp only
  cases hs : astarSearch bm start end_ fuel with
  | none => rw [hs] at h; simp at h
  | some st =>
    rw [hs] at h
    dsimp only at h
    dsimp only
    cases hcf : st.came_from (sNode end_) with
    | none => rfl
    | some o => rw [hcf] at h; simp at h

/-- Witness for C2: the walled-in start in `wallBox`. -/
theorem C2_fallback_witness :
    calculate_astar_path (some wallBox) ((40:ℚ),(40:ℚ)) ((100:ℚ),(40:ℚ)) 2 =
      some [((40:ℚ),(40:ℚ)), ((100:ℚ),(40:ℚ))] :=
  C2_fallback_amended wallBox ((40:ℚ),(40:ℚ)) ((100:ℚ),(40:ℚ)) 2 (by decide)

/-- C2 counterexample: start (40,40) boxed in by four wall pixels; the
frontier empties at once (search failure) and findPath returns the
two-point [start, end], not the claimed three-point
[start, (end.x, start.y), end]. -/
theorem C2_counterexample :
    astarFailed wallBox ((40:ℚ),(40:ℚ)) ((100:ℚ),(40:ℚ)) 2 = true ∧
    calculate_astar_path (some wallBox) ((40:ℚ),(40:ℚ)) ((100:ℚ),(40:ℚ)) 2 =
      some [((40:ℚ),(40:ℚ)), ((100:ℚ),(40:ℚ))] ∧
    [((40:ℚ),(40:ℚ)), ((100:ℚ),(40:ℚ))] ≠
      [((40:ℚ),(40:ℚ)), ((100:ℚ),(40:ℚ)), ((100:ℚ),(40:ℚ))] := by decide

/-- C4: on an obstacle grid of at most 20-by-20 cells (400-by-400 pixels),
whenever the A* search returns a (non-fallback) path and the brute-force
BFS reference computes the shortest-route step count `k` between the
snapped endpoints over the same 4-connected grid, the returned path has
exactly `k` unit steps (`k + 1` nodes), i.e. its length equals the
shortest-path distance. -/
theorem C4_astar_optimal (bm : Bitmap) (start end_ : Pt) (fuel fuel2 : ℕ)
    (l : List Node) (k : ℕ)
    (hw : bm.width ≤ 400) (hh : bm.height ≤ 400)
    (hfound : astarFound bm start end_ fuel = some l)
    (hbfs : bfsRefDist bm (sNode start) (sNode end_) fuel2 = some k) :
    l.length = k + 1 ∧
    calculate_astar_path (some bm) start end_ fuel =
      some (l.reverse.map toPoint) := by
  obtain ⟨st, hs, hcf, hrec⟩ := astarFound_cases hfound
  obtain ⟨hcore, hopt⟩ := astarSearch_invariants hs
  obtain ⟨hhead, hlast, hroute, hcost, hdom, hchain⟩ :=
    reconPath_spec bm _ _ st hcore fuel _ l hrec
  obtain ⟨hbfsroute, hbfsmin⟩ := bfsRefDist_shortest bm _ _ fuel2 k hbfs
  obtain ⟨c, hc, hcle⟩ := hopt k hbfsroute
  have hlen := hcost c hc
  have hk2 : k ≤ l.length - 1 := hbfsmin _ hroute
  have hlne : l ≠ [] := by
    intro hnil
    subst hnil
    simp at hhead
  have hlpos : 1 ≤ l.length := List.length_pos.mpr hlne
  refine ⟨?_, calculate_eq_of_found hfound⟩
  have hupper : (l.length : ℤ) - 1 ≤ (k : ℤ) := by linarith
  omega

/-- Witness for C4: the free 1-by-1 grid, start (0,0), end (20,0): the
search returns the two-node path and BFS distance 1. -/
theorem C4_astar_optimal_witness :
    ([((20:ℤ),(0:ℤ)), ((0:ℤ),(0:ℤ))] : List Node).length = 1 + 1 ∧
    calculate_astar_path (some freeCell) ((0:ℚ),(0:ℚ)) ((20:ℚ),(0:ℚ)) 3 =
      some (([((20:ℤ),(0:ℤ)), ((0:ℤ),(0:ℤ))] : List Node).reverse.map toPoint) :=
  C4_astar_optimal freeCell ((0:ℚ),(0:ℚ)) ((20:ℚ),(0:ℚ)) 3 2
    [((20:ℤ),(0:ℤ)), ((0:ℤ),(0:ℤ))] 1 (by decide) (by decide)
    (by decide) (by decide)

/-- C7 (amended): every node of a path returned by the A* search proper
has both coordinates multiples of GridUnit (20); in the degenerate
no-bitmap path the middle bend point is always grid-aligned; and whenever
the raw `start` and `end` are themselves grid-aligned, every node of every
returned path (degenerate, fallback or searched) is grid-aligned.  (The
original claim is false because the degenerate and fallback paths contain
the raw, unsnapped `start` and `end`: see `C7_counterexample`.) -/
theorem C7_alignment_amended :
    (∀ (bm : Bitmap) (start end_ : Pt) (fuel : ℕ) (l : List Node),
      astarFound bm start end_ fuel = some l →
      ∀ n ∈ l, (20:ℤ) ∣ n.1 ∧ (20:ℤ) ∣ n.2) ∧
    (∀ start end_ : Pt,
      (20:ℤ) ∣ (sNode end_).1 ∧ (20:ℤ) ∣ (sNode start).2) ∧
    (∀ (om : Option Bitmap) (start end_ : Pt) (fuel : ℕ) (p : List Pt),
      (∃ k1 k2 : ℤ, start = (20 * (k1:ℚ), 20 * (k2:ℚ))) →
      (∃ k1 k2 : ℤ, end_ = (20 * (k1:ℚ), 20 * (k2:ℚ))) →
      calculate_astar_path om start end_ fuel = some p →
      ∀ q ∈ p, ∃ k1 k2 : ℤ, q = (20 * (k1:ℚ), 20 * (k2:ℚ))) := by
  have haligned : ∀ (start end_ : Pt),
      (20:ℤ) ∣ (sNode end_).1 ∧ (20:ℤ) ∣ (sNode start).2 :=
    fun start end_ => ⟨(sNode_aligned end_).1, (sNode_aligned start).2⟩
  refine ⟨fun bm start end_ fuel l h => astarFound_aligned h, haligned, ?_⟩
  intro om start end_ fuel p hstart hend hcalc q hq
  have hnode : ∀ n : Node, (20:ℤ) ∣ n.1 → (20:ℤ) ∣ n.2 →
      ∃ k1 k2 : ℤ, toPoint n = (20 * (k1:ℚ), 20 * (k2:ℚ)) := by
    rintro ⟨nx, ny⟩ ⟨k1, rfl⟩ ⟨k2, rfl⟩
    exact ⟨k1, k2, by unfold toPoint; push_cast; rfl⟩
  cases om with
  | none =>
    unfold calculate_astar_path at hcalc
    simp only [Option.some.injEq] at hcalc
    subst hcalc
    simp only [List.mem_cons, List.not_mem_nil, or_false] at hq
    rcases hq with rfl | hq2
    · exact hstart
    rcases hq2 with rfl | hq3
    · obtain ⟨ke, hke⟩ := (sNode_aligned end_).1
      obtain ⟨ks, hks⟩ := (sNode_aligned start).2
      refine ⟨ke, ks, ?_⟩
      rw [Prod.ext_iff]
      constructor
      · dsimp only
        rw [hke]
        push_cast
        ring
      · dsimp only
        rw [hks]
        push_cast
        ring
    subst hq3
    exact hend
  | some bm =>
    unfold calculate_astar_path at hcalc
    dsimp only at hcalc
    cases hs : astarSearch bm start end_ fuel with
    | none => rw [hs] at hcalc; exact absurd hcalc (by simp)
    | some st =>
      rw [hs] at hcalc
      dsimp only at hcalc
      cases hcf : st.came_from (sNode end_) with
      | none =>
        rw [hcf] at hcalc
        dsimp only at hcalc
        simp only [Option.some.injEq] at hcalc
        subst hcalc
        simp only [List.mem_cons, List.not_mem_nil, or_false] at hq
        rcases hq with rfl | hq2
        · exact hstart
        · subst hq2
          exact hend
      | some o =>
        rw [hcf] at hcalc
        dsimp only at hcalc
        cases hrec : reconPath st.came_from fuel (sNode end_) with
        | none => rw [hrec] at hcalc; exact absurd hcalc (by simp)
        | some l =>
          rw [hrec] at hcalc
          simp only [Option.map_some', Option.some.injEq] at hcalc
          subst hcalc
          obtain ⟨n, hn, rfl⟩ := List.mem_map.mp hq
          have hfound : astarFound bm start end_ fuel = some l :=
            astarFound_intro hs hcf hrec
          obtain ⟨h1, h2⟩ :=
            astarFound_aligned hfound n (List.mem_reverse.mp hn)
          exact hnode n h1 h2

/-- Witness for C7: a node of a concrete searched path is grid-aligned. -/
theorem C7_alignment_witness :
    (20:ℤ) ∣ (((20:ℤ),(0:ℤ)) : Node).1 ∧ (20:ℤ) ∣ (((20:ℤ),(0:ℤ)) : Node).2 :=
  C7_alignment_amended.1 freeCell ((0:ℚ),(0:ℚ)) ((20:ℚ),(0:ℚ)) 3
    [((20:ℤ),(0:ℤ)), ((0:ℤ),(0:ℤ))] (by decide) ((20:ℤ),(0:ℤ)) (by decide)

/-- C7 counterexample: with no bitmap and raw start (1,1), the returned
degenerate path contains (1,1), whose x-coordinate is a multiple of no
GridUnit: the original claim fails for the degenerate and fallback
paths. -/
theorem C7_counterexample :
    calculate_astar_path none ((1:ℚ),(1:ℚ)) ((39:ℚ),(39:ℚ)) 0 =
      some [((1:ℚ),(1:ℚ)), ((40:ℚ),(0:ℚ)), ((39:ℚ),(39:ℚ))] ∧
    ∀ k : ℤ, (1:ℚ) ≠ 20 * (k:ℚ) := by
  constructor
  · decide
  · intro k hk
    have h2 : (1:ℤ) = 20 * k := by exact_mod_cast hk
    omega

theorem homerunScanGo_spec {n : ℕ} :
    ∀ (l vis qs : List (Fin n)), vis.Nodup →
    ∃ new, homerunScanGo l (vis, qs) = (vis ++ new, qs ++ new) ∧
      (vis ++ new).Nodup ∧ (∀ x ∈ new, x ∈ l ∧ x ∉ vis) ∧
      (∀ nb ∈ l, nb ∈ vis ++ new) := by
  intro l
  induction l with
  | nil =>
    intro vis qs hnd
    exact ⟨[], by simp [homerunScanGo], by simpa using hnd, by simp, by simp⟩
  | cons nb rest ih =>
    intro vis qs hnd
    rw [homerunScanGo]
    by_cases hmem : nb ∈ vis
    · rw [if_pos hmem]
      obtain ⟨new, heq, hnd2, hsub, hcov⟩ := ih vis qs hnd
      refine ⟨new, heq, hnd2, ?_, ?_⟩
      · intro x hx
        obtain ⟨h1, h2⟩ := hsub x hx
        exact ⟨List.mem_cons_of_mem _ h1, h2⟩
      · intro x hx
        rcases List.mem_cons.mp hx with rfl | hx2
        · exact List.mem_append_left _ hmem
        · exact hcov x hx2
    · rw [if_neg hmem]
      have hnd1 : (vis ++ [nb]).Nodup := by
        rw [List.nodup_append]
        refine ⟨hnd, List.nodup_singleton nb, ?_⟩
        intro x hx hx2
        simp only [List.mem_singleton] at hx2
        subst hx2
        exact hmem hx
      obtain ⟨new, heq, hnd2, hsub, hcov⟩ := ih (vis ++ [nb]) (qs ++ [nb]) hnd1
      refine ⟨nb :: new, ?_, ?_, ?_, ?_⟩
      · rw [heq]
        simp
      · simpa using hnd2
      · intro x hx
        rcases List.mem_cons.mp hx with rfl | hx2
        · exact ⟨List.mem_cons_self _ _, hmem⟩
        · obtain ⟨h1, h2⟩ := hsub x hx2
          exact ⟨List.mem_cons_of_mem _ h1,
            fun hxv => h2 (List.mem_append_left _ hxv)⟩
      · intro x hx
        rcases List.mem_cons.mp hx with rfl | hx2
        · exact List.mem_append_right _ (List.mem_cons_self _ _)
        · have hin := hcov x hx2
          simpa using hin

theorem homerunLoop_spec {n : ℕ} (conn : Fin n → List (Fin n))
    (root : Fin n) :
    ∀ (fuel : ℕ) (vis queue acc : List (Fin n)),
    vis.Nodup →
    (∀ x ∈ queue, x ∈ vis) →
    (∀ v ∈ vis, ConnReach conn root v) →
    (∀ v ∈ vis, v ∈ queue ∨ ∀ nb ∈ conn v, nb ∈ vis) →
    queue.length + (n - vis.length) ≤ fuel →
    ∃ acc2 vis2,
      homerunLoop conn root fuel vis queue acc = some (acc2, vis2) ∧
      vis2.Nodup ∧
      (∀ x ∈ vis, x ∈ vis2) ∧
      (∀ v ∈ vis2, ConnReach conn root v) ∧
      (∀ v ∈ vis2, ∀ nb ∈ conn v, nb ∈ vis2) := by
  intro fuel
  induction fuel with
  | zero =>
    intro vis queue acc hnd hqv hreach hfront hbound
    cases queue with
    | nil =>
      refine ⟨acc, vis, rfl, hnd, fun x hx => hx, hreach, ?_⟩
      intro v hv nb hnb
      rcases hfront v hv with hq | hcl
      · exact absurd hq (List.not_mem_nil v)
      · exact hcl nb hnb
    | cons c qs => simp at hbound
  | succ fuel ih =>
    intro vis queue acc hnd hqv hreach hfront hbound
    cases queue with
    | nil =>
      refine ⟨acc, vis, rfl, hnd, fun x hx => hx, hreach, ?_⟩
      intro v hv nb hnb
      rcases hfront v hv with hq | hcl
      · exact absurd hq (List.not_mem_nil v)
      · exact hcl nb hnb
    | cons current qs =>
      obtain ⟨new, heq, hnd2, hsub, hcov⟩ :=
        homerunScanGo_spec (conn current) vis qs hnd
      have hcur_vis : current ∈ vis := hqv current (List.mem_cons_self _ _)
      have hcur_reach : ConnReach conn root current := hreach current hcur_vis
      have hlen2 : (vis ++ new).length ≤ n := by
        have := List.Nodup.length_le_card hnd2
        simpa [Fintype.card_fin] using this
      have hnewlen : vis.length + new.length ≤ n := by
        simpa [List.length_append] using hlen2
      have hboundrec : (qs ++ new).length + (n - (vis ++ new).length) ≤ fuel := by
        simp only [List.length_append, List.length_cons] at hbound ⊢
        omega
      obtain ⟨acc2, vis2, hloop, h1, h2, h3, h4⟩ :=
        ih (vis ++ new) (qs ++ new)
          (if current = root then acc else acc ++ [current])
          hnd2
          (by
            intro x hx
            rcases List.mem_append.mp hx with hx1 | hx2
            · exact List.mem_append_left _ (hqv x (List.mem_cons_of_mem _ hx1))
            · exact List.mem_append_right _ hx2)
          (by
            intro v hv
            rcases List.mem_append.mp hv with hv1 | hv2
            · exact hreach v hv1
            · obtain ⟨hconn, -⟩ := hsub v hv2
              exact ConnReach.step hcur_reach hconn)
          (by
            intro v hv
            rcases List.mem_append.mp hv with hv1 | hv2
            · rcases hfront v hv1 with hq | hcl
              · rcases List.mem_cons.mp hq with rfl | hq2
                · exact Or.inr (fun nb hnb => hcov nb hnb)
                · exact Or.inl (List.mem_append_left _ hq2)
              · exact Or.inr (fun nb hnb =>
                  List.mem_append_left _ (hcl nb hnb))
            · exact Or.inl (List.mem_append_right _ hv2))
          hboundrec
      refine ⟨acc2, vis2, ?_, h1, ?_, h3, h4⟩
      · rw [homerunLoop]
        rw [heq]
        exact hloop
      · intro x hx
        exact h2 x (List.mem_append_left _ hx)

/-- C8: for the star topology with children added in order A, B, C and no
further edges, the homerun tree traversal yields the children in exactly
the breadth-first insertion order [A, B, C] (and visits the set
{root, A, B, C} in that order). -/
theorem C8_homerun_star_order :
    homerunTraversal starConn 0 4 = some ([1, 2, 3], [0, 1, 2, 3]) := by
  decide

/-- C9: for every connection graph over `n` components the homerun BFS
terminates within `n` dequeue steps (fuel `n` never runs out), its visited
set has no duplicates (each component visited at most once), and the
visited set is exactly the set of components reachable from the root; in
the three-cycle example A-B, B-C, C-A started at A it terminates in 3
dequeues and visits exactly [A, B, C], each once. -/
theorem C9_homerun_cycle_termination :
    (∀ (n : ℕ) (conn : Fin n → List (Fin n)) (root : Fin n),
      ∃ acc vis, homerunTraversal conn root n = some (acc, vis) ∧
        vis.Nodup ∧ (∀ v, ConnReach conn root v ↔ v ∈ vis)) ∧
    homerunTraversal cycleConn 0 3 = some ([1, 2], [0, 1, 2]) := by
  constructor
  · intro n conn root
    obtain ⟨acc2, vis2, hloop, hnd, hsub, hreach, hclosed⟩ :=
      homerunLoop_spec conn root n [root] [root] []
        (List.nodup_singleton root)
        (fun x hx => hx)
        (by
          intro v hv
          simp only [List.mem_singleton] at hv
          subst hv
          exact ConnReach.root)
        (fun v hv => Or.inl hv)
        (by
          have hpos : 0 < n := root.pos
          simp only [List.length_singleton]
          omega)
    refine ⟨acc2, vis2, hloop, hnd, ?_⟩
    intro v
    constructor
    · intro hr
      induction hr with
      | root => exact hsub root (List.mem_singleton.mpr rfl)
      | step ha hb ihm => exact hclosed _ ihm _ hb
    · exact hreach v
  · decide

/-- C3 (amended): with no obstacle bitmap the planner returns exactly the
three-point bend `[start, (snap(end.x), snap(start.y)), end]`, where
`snap(c) = round(c / GridUnit) * GridUnit`: the middle point carries the
SNAPPED x of `end` and SNAPPED y of `start`, not the raw coordinates the
claim stated (see `C3_counterexample`). -/
theorem C3_no_bitmap_amended (start end_ : Pt) (fuel : ℕ)
    (h : start ≠ end_) :
    calculate_astar_path none start end_ fuel =
      some [start, (((sNode end_).1 : ℚ), ((sNode start).2 : ℚ)), end_] := rfl

/-- Witness for C3 at start (0,0), end (40,40). -/
theorem C3_no_bitmap_witness :
    calculate_astar_path none ((0:ℚ),(0:ℚ)) ((40:ℚ),(40:ℚ)) 0 =
      some [((0:ℚ),(0:ℚ)),
        (((sNode ((40:ℚ),(40:ℚ))).1 : ℚ), ((sNode ((0:ℚ),(0:ℚ))).2 : ℚ)),
        ((40:ℚ),(40:ℚ))] :=
  C3_no_bitmap_amended ((0:ℚ),(0:ℚ)) ((40:ℚ),(40:ℚ)) 0 (by decide)

/-- C3 counterexample: start (1,1), end (39,39): the middle bend point is
the snapped (40, 0), not the raw (39, 1) required by the claim. -/
theorem C3_counterexample :
    calculate_astar_path none ((1:ℚ),(1:ℚ)) ((39:ℚ),(39:ℚ)) 0 =
      some [((1:ℚ),(1:ℚ)), ((40:ℚ),(0:ℚ)), ((39:ℚ),(39:ℚ))] ∧
    (((40:ℚ),(0:ℚ)) : Pt) ≠ (((39:ℚ),(1:ℚ)) : Pt) := by decide

/-- C5: `is_wall_at` returns true iff a bitmap is loaded, the truncated
pixel is within the bitmap bounds and its lightness is below 120; in
particular it is false for every query with no bitmap and false for every
out-of-bounds query. -/
theorem C5_is_wall_at_spec :
    (∀ (om : Option Bitmap) (pos : Pt),
      is_wall_at om pos = true ↔ ∃ bm, om = some bm ∧
        0 ≤ pytrunc pos.1 ∧ pytrunc pos.1 < (bm.width : ℤ) ∧
        0 ≤ pytrunc pos.2 ∧ pytrunc pos.2 < (bm.height : ℤ) ∧
        bm.lightness (pytrunc pos.1) (pytrunc pos.2) < 120) ∧
    (∀ pos : Pt, is_wall_at none pos = false) ∧
    (∀ (bm : Bitmap) (pos : Pt),
      ¬(0 ≤ pytrunc pos.1 ∧ pytrunc pos.1 < (bm.width : ℤ) ∧
        0 ≤ pytrunc pos.2 ∧ pytrunc pos.2 < (bm.height : ℤ)) →
      is_wall_at (some bm) pos = false) := by
  refine ⟨?_, fun pos => rfl, ?_⟩
  · intro om pos
    cases om with
    | none => simp [is_wall_at]
    | some bm =>
      unfold is_wall_at
      dsimp only
      split
      case isTrue hcond =>
        simp only [decide_eq_true_eq]
        constructor
        · intro h
          exact ⟨bm, rfl, hcond.1, hcond.2.1, hcond.2.2.1, hcond.2.2.2, h⟩
        · rintro ⟨bm2, heq, h1, h2, h3, h4, h5⟩
          obtain rfl := Option.some.inj heq
          exact h5
      case isFalse hcond =>
        constructor
        · intro h
          exact absurd h (by simp)
        · rintro ⟨bm2, heq, h1, h2, h3, h4, h5⟩
          obtain rfl := Option.some.inj heq
          exact absurd ⟨h1, h2, h3, h4⟩ hcond
  · intro bm pos hcond
    unfold is_wall_at
    dsimp only
    rw [if_neg hcond]

/-- Witness for C5: (5,0) is outside the 1-by-1 bitmap, hence free. -/
theorem C5_is_wall_at_witness :
    is_wall_at (some freeCell) ((5:ℚ), (0:ℚ)) = false :=
  C5_is_wall_at_spec.2.2 freeCell ((5:ℚ), (0:ℚ)) (by decide)

/-- C6 (amended): the obstacle query truncates the continuous position to
integer pixel coordinates (Python `int()`, toward zero) before sampling:
any two positions whose coordinates truncate to the same pixel receive the
same answer.  It does NOT snap to the nearest GridNode by
`round(coord/GridUnit)*GridUnit` as claimed: see `C6_counterexample`. -/
theorem C6_trunc_congr (om : Option Bitmap) (p q : Pt)
    (hx : pytrunc p.1 = pytrunc q.1) (hy : pytrunc p.2 = pytrunc q.2) :
    is_wall_at om p = is_wall_at om q := by
  cases om with
  | none => rfl
  | some bm =>
    unfold is_wall_at
    dsimp only
    rw [hx, hy]

/-- Witness for C6: (5/2, 0) and (2, 0) truncate to the same pixel. -/
theorem C6_trunc_congr_witness :
    is_wall_at (some darkCell) (((5:ℚ)/2, (0:ℚ))) =
      is_wall_at (some darkCell) (((2:ℚ), (0:ℚ))) :=
  C6_trunc_congr (some darkCell) ((5:ℚ)/2, (0:ℚ)) ((2:ℚ), (0:ℚ))
    (by decide) (by decide)

/-- C6 counterexample: (0,0) and (9,0) snap to the same GridNode under
`round(c/20)*20` (both to (0,0)), yet one is reported free and the other
blocked — so the query cannot be snapping to the GridNode before
sampling. -/
theorem C6_counterexample :
    (pyround ((0:ℚ)/20) * 20, pyround ((0:ℚ)/20) * 20) =
      (pyround ((9:ℚ)/20) * 20, pyround ((0:ℚ)/20) * 20) ∧
    is_wall_at (some stripeRow) ((0:ℚ), (0:ℚ)) = false ∧
    is_wall_at (some stripeRow) ((9:ℚ), (0:ℚ)) = true := by decide

/-- C10: `a.add_connection(b)` returns true iff `b` is non-null and not
already present (appending it to `a.connections` exactly then), leaves the
whole state unchanged otherwise, never touches any other component's list
— in particular `b.connections` is unchanged, so one call records a
one-directional adjacency. -/
theorem C10_add_connection_spec (st : ConnState) (a b : ℕ) (h : a ≠ b) :
    ((add_connection st a (some b)).2 = true ↔ b ∉ st a) ∧
    (b ∉ st a → (add_connection st a (some b)).1 a = st a ++ [b]) ∧
    (b ∈ st a → (add_connection st a (some b)).1 = st) ∧
    (∀ c, c ≠ a → (add_connection st a (some b)).1 c = st c) ∧
    ((add_connection st a (some b)).1 b = st b) ∧
    (add_connection st a none = (st, false)) := by
  refine ⟨?_, ?_, ?_, ?_, ?_, rfl⟩
  · by_cases hmem : b ∈ st a <;> simp [add_connection, hmem]
  · intro hmem
    simp [add_connection, hmem]
  · intro hmem
    simp [add_connection, hmem]
  · intro c hc
    by_cases hmem : b ∈ st a
    · simp [add_connection, hmem]
    · simp [add_connection, hmem, hc]
  · by_cases hmem : b ∈ st a
    · simp [add_connection, hmem]
    · have hba : b ≠ a := Ne.symm h
      simp [add_connection, hmem, hba]

/-- Witness for C10: adding 1 to component 0 in the empty state leaves
component 1's list unchanged. -/
theorem C10_add_connection_witness :
    (add_connection (fun _ => ([] : List ℕ)) 0 (some 1)).1 1 = [] :=
  (C10_add_connection_spec (fun _ => []) 0 1 (by decide)).2.2.2.2.1

end Elecdraft
